import Mathlib

set_option maxRecDepth 100000

/-!
Verification of the pyblockchain ledger engine (blockchain.py, utils.py).

The development shallowly embeds the source: blocks and transactions become
Lean structures, the canonical codec (`json.dumps(..., sort_keys=True)` +
SHA-256) becomes an executable serializer and a Nat-based SHA-256, the
stateful `BlockChain` methods become explicit state-passing functions, and
Python exceptions become `Except` error results.  Machine 32-bit words are
Nat with explicit `% 2^32`.
-/

/-! ## SHA-256 over byte lists (bytes are `Nat < 256`, words are `Nat < 2^32`) -/

/-- Truncate to a 32-bit word. -/
def w32 (n : Nat) : Nat := n % 4294967296

/-- Rotate a 32-bit word right by `n` bits. -/
def rotr32 (x n : Nat) : Nat := w32 ((x >>> n) ||| (x <<< (32 - n)))

/-- Bitwise complement of a 32-bit word. -/
def not32 (x : Nat) : Nat := x ^^^ 4294967295

def sha256Ch (x y z : Nat) : Nat := (x &&& y) ^^^ (not32 x &&& z)

def sha256Maj (x y z : Nat) : Nat := (x &&& y) ^^^ (x &&& z) ^^^ (y &&& z)

def bigSigma0 (x : Nat) : Nat := rotr32 x 2 ^^^ rotr32 x 13 ^^^ rotr32 x 22

def bigSigma1 (x : Nat) : Nat := rotr32 x 6 ^^^ rotr32 x 11 ^^^ rotr32 x 25

def smallSigma0 (x : Nat) : Nat := rotr32 x 7 ^^^ rotr32 x 18 ^^^ (x >>> 3)

def smallSigma1 (x : Nat) : Nat := rotr32 x 17 ^^^ rotr32 x 19 ^^^ (x >>> 10)

/-- The eight working variables of the SHA-256 compression function. -/
structure Sha256State where
  a : Nat
  b : Nat
  c : Nat
  d : Nat
  e : Nat
  f : Nat
  g : Nat
  h : Nat
deriving DecidableEq

/-- The initial hash value H(0) of FIPS 180-4, in decimal. -/
def sha256Init : Sha256State :=
  ⟨1779033703, 3144134277, 1013904242, 2773480762, 1359893119, 2600822924,
   528734635, 1541459225⟩

/-- The 64 round constants of FIPS 180-4, in decimal. -/
def sha256K : List Nat :=
  [1116352408, 1899447441, 3049323471, 3921009573, 961987163, 1508970993,
   2453635748, 2870763221, 3624381080, 310598401, 607225278, 1426881987,
   1925078388, 2162078206, 2614888103, 3248222580, 3835390401, 4022224774,
   264347078, 604807628, 770255983, 1249150122, 1555081692, 1996064986,
   2554220882, 2821834349, 2952996808, 3210313671, 3336571891, 3584528711,
   113926993, 338241895, 666307205, 773529912, 1294757372, 1396182291,
   1695183700, 1986661051, 2177026350, 2456956037, 2730485921, 2820302411,
   3259730800, 3345764771, 3516065817, 3600352804, 4094571909, 275423344,
   430227734, 506948616, 659060556, 883997877, 958139571, 1322822218,
   1537002063, 1747873779, 1955562222, 2024104815, 2227730452, 2361852424,
   2428436474, 2756734187, 3204031479, 3329325298]

/-- One round of the compression function; `kw` pairs the round constant with
the scheduled word. -/
def sha256Round (s : Sha256State) (kw : Nat × Nat) : Sha256State :=
  let t1 := w32 (s.h + bigSigma1 s.e + sha256Ch s.e s.f s.g + kw.1 + kw.2)
  let t2 := w32 (bigSigma0 s.a + sha256Maj s.a s.b s.c)
  { a := w32 (t1 + t2), b := s.a, c := s.b, d := s.c,
    e := w32 (s.d + t1), f := s.e, g := s.f, h := s.g }

/-- Extend the message schedule; the accumulator holds the words produced so
far most recent first. -/
def sha256ExtendRev : Nat → List Nat → List Nat
  | 0, acc => acc
  | n + 1, acc =>
    sha256ExtendRev n
      (w32 (smallSigma1 (acc.getD 1 0) + acc.getD 6 0 +
            smallSigma0 (acc.getD 14 0) + acc.getD 15 0) :: acc)

/-- The 64-word message schedule of a 16-word chunk. -/
def sha256Schedule (ws : List Nat) : List Nat := (sha256ExtendRev 48 ws.reverse).reverse

/-- Compress one 16-word chunk into the running hash state. -/
def sha256Compress (hs : Sha256State) (ws : List Nat) : Sha256State :=
  let t := (sha256K.zip (sha256Schedule ws)).foldl sha256Round hs
  { a := w32 (hs.a + t.a), b := w32 (hs.b + t.b), c := w32 (hs.c + t.c),
    d := w32 (hs.d + t.d), e := w32 (hs.e + t.e), f := w32 (hs.f + t.f),
    g := w32 (hs.g + t.g), h := w32 (hs.h + t.h) }

/-- `k` big-endian bytes of `n`. -/
def beBytes (k n : Nat) : List Nat :=
  (List.range k).map (fun i => (n >>> (8 * (k - 1 - i))) % 256)

/-- SHA-256 padding: a 0x80 byte, zeros to 56 mod 64, the bit length in 8
big-endian bytes. -/
def sha256Pad (msg : List Nat) : List Nat :=
  msg ++ 128 :: (List.replicate ((119 - msg.length % 64) % 64) 0 ++ beBytes 8 (8 * msg.length))

/-- Big-endian 32-bit words of a byte list whose length is a multiple of 4. -/
def bytesToWords : List Nat → List Nat
  | a :: b :: c :: d :: rest => (((a * 256 + b) * 256 + c) * 256 + d) :: bytesToWords rest
  | _ => []

/-- Split into 16-word chunks; the first argument is fuel bounding the
recursion depth. -/
def wordChunks : Nat → List Nat → List (List Nat)
  | 0, _ => []
  | _ + 1, [] => []
  | n + 1, ws => ws.take 16 :: wordChunks n (ws.drop 16)

/-- SHA-256 of a byte list, as 32 bytes. -/
def sha256Bytes (msg : List Nat) : List Nat :=
  let ws := bytesToWords (sha256Pad msg)
  let fin := (wordChunks ws.length ws).foldl sha256Compress sha256Init
  beBytes 4 fin.a ++ beBytes 4 fin.b ++ beBytes 4 fin.c ++ beBytes 4 fin.d ++
  beBytes 4 fin.e ++ beBytes 4 fin.f ++ beBytes 4 fin.g ++ beBytes 4 fin.h

def hexDigitChar (n : Nat) : Char := if n < 10 then Char.ofNat (48 + n) else Char.ofNat (87 + n)

/-- Lowercase hex rendering of a byte list. -/
def bytesToHex (bs : List Nat) : String :=
  (bs.flatMap (fun b => [hexDigitChar (b / 16), hexDigitChar (b % 16)])).asString

/-- UTF-8 bytes of a string; every string this development hashes is ASCII
(the serializer `\u`-escapes anything else), where UTF-8 is the identity on
code points. -/
def strBytes (s : String) : List Nat := s.data.map Char.toNat

/-- `hashlib.sha256(s.encode()).hexdigest()` for an ASCII string `s`. -/
def sha256HexOfString (s : String) : String := bytesToHex (sha256Bytes (strBytes s))

/-! ## Canonical codec: `json.dumps(map, sort_keys=True)`

`json.dumps` with its default options separates items with ", ", keys from
values with ": ", and (`ensure_ascii`) escapes every character outside
0x20..0x7e, so its output is ASCII. -/

/-- One character of a JSON string body, as CPython's `json` renders it.
CPython uses the shorthand escapes for backspace, form feed, newline,
carriage return and tab, and `\uXXXX` for every other character outside
0x20..0x7e. -/
def jsonEscapeChar (c : Char) : String :=
  if c = '"' then "\\\""
  else if c = '\\' then "\\\\"
  else if c = Char.ofNat 8 then "\\b"
  else if c = Char.ofNat 12 then "\\f"
  else if c = Char.ofNat 10 then "\\n"
  else if c = Char.ofNat 13 then "\\r"
  else if c = Char.ofNat 9 then "\\t"
  else if c.toNat < 32 ∨ c.toNat > 126 then "\\u" ++ bytesToHex (beBytes 2 c.toNat)
  else c.toString

/-- A JSON string literal. -/
def jsonQuote (s : String) : String :=
  "\"" ++ String.join (s.data.map jsonEscapeChar) ++ "\""

/-- `repr` of a Python float of integral value: `float(n)` prints as `n.0`,
which covers every float this development serializes (timestamps, values and
the mining reward are such floats in the examples and the hashes only ever
evaluated on them).  Non-integral rationals fall back to a num/den rendering;
Python's shortest-round-trip repr of non-integral floats is not modelled. -/
def pyFloatRepr (q : ℚ) : String :=
  if q.den = 1 then toString q.num ++ ".0"
  else toString q.num ++ "/" ++ toString q.den

/-! ## Data model (blockchain.py)

A transaction is the map `sorted_dict_by_key({'sender_blockchain_address',
'recipient_blockchain_address', 'value'})`, a block the map
`sorted_dict_by_key({'timestamp', 'transactions', 'nonce', 'previous_hash'})`.
Python float values are modelled as rationals. -/

def MINING_DIFFICULTY : Nat := 3
def MINING_SENDER : String := "THE BLOCKCHAIN"
def MINING_REWARD : ℚ := 1

structure Transaction where
  sender_blockchain_address : String
  recipient_blockchain_address : String
  value : ℚ
deriving DecidableEq

structure Block where
  timestamp : ℚ
  transactions : List Transaction
  nonce : Nat
  previous_hash : String
deriving DecidableEq

/-- `json.dumps(transaction, sort_keys=True)`: the keys in sorted order are
recipient_blockchain_address, sender_blockchain_address, value. -/
def dumpsTransaction (t : Transaction) : String :=
  "\x7b\"recipient_blockchain_address\": " ++ jsonQuote t.recipient_blockchain_address ++
  ", \"sender_blockchain_address\": " ++ jsonQuote t.sender_blockchain_address ++
  ", \"value\": " ++ pyFloatRepr t.value ++ "\x7d"

def dumpsTransactionList (ts : List Transaction) : String :=
  "[" ++ String.intercalate ", " (ts.map dumpsTransaction) ++ "]"

/-- `json.dumps(block, sort_keys=True)`: the keys in sorted order are nonce,
previous_hash, timestamp, transactions. -/
def dumpsBlock (b : Block) : String :=
  "\x7b\"nonce\": " ++ toString b.nonce ++
  ", \"previous_hash\": " ++ jsonQuote b.previous_hash ++
  ", \"timestamp\": " ++ pyFloatRepr b.timestamp ++
  ", \"transactions\": " ++ dumpsTransactionList b.transactions ++ "\x7d"

/-- `BlockChain.hash` applied to a block map. -/
def blockHash (b : Block) : String := sha256HexOfString (dumpsBlock b)

/-- `self.hash({})`: the previous_hash of the genesis block. -/
def emptyDictHash : String := sha256HexOfString "\x7b\x7d"

/-! ## Generic Python maps, for the codec's key-order stability

`BlockChain.hash` takes any key/value map; `json.dumps(..., sort_keys=True)`
sorts the keys of every (nested) object, so the output does not depend on
insertion order.  `PyVal` is the type of Python values the codec meets. -/

inductive PyVal where
  | pstr : String → PyVal
  | pint : Int → PyVal
  | pfloat : ℚ → PyVal
  | plist : List PyVal → PyVal
  | pdict : List (String × PyVal) → PyVal

/-- `sorted(d.items(), key=lambda d: d[0])` compares entries by key. -/
def entryLE (a b : String × PyVal) : Prop := a.1 ≤ b.1

instance : DecidableRel entryLE := fun a b => inferInstanceAs (Decidable (a.1 ≤ b.1))

/-- `json.dumps(v, sort_keys=True)` on an arbitrary Python value: every
object's entries are serialized in sorted key order. -/
def dumpsVal : PyVal → String
  | .pstr s => jsonQuote s
  | .pint n => toString n
  | .pfloat q => pyFloatRepr q
  | .plist l => "[" ++ String.intercalate ", " (l.attach.map (fun x => dumpsVal x.1)) ++ "]"
  | .pdict d =>
    "\x7b" ++ String.intercalate ", "
      ((List.insertionSort entryLE d).attach.map
        (fun x => jsonQuote x.1.1 ++ ": " ++ dumpsVal x.1.2)) ++ "\x7d"
termination_by v => sizeOf v
decreasing_by
  · have h := List.sizeOf_lt_of_mem x.2
    simp only [PyVal.plist.sizeOf_spec]
    omega
  · have hmem : x.1 ∈ d := (List.perm_insertionSort entryLE d).mem_iff.mp x.2
    have h := List.sizeOf_lt_of_mem hmem
    have h2 : sizeOf x.1.2 < sizeOf x.1 := by
      cases x.1 with
      | mk k v => simp only [Prod.mk.sizeOf_spec]; omega
    simp only [PyVal.pdict.sizeOf_spec]
    omega

/-- `BlockChain.hash` on an arbitrary map. -/
def dictHash (d : List (String × PyVal)) : String := sha256HexOfString (dumpsVal (.pdict d))

/-! ## The ledger state and its operations

`BlockChain.__init__` also stores a port, the neighbour list and two
semaphores; the neighbour list enters only through network fetches, which the
fork-choice resolver receives here as the list of successfully fetched
chains, and the mining semaphore is modelled with the scheduler below. -/

structure BlockChain where
  transaction_pool : List Transaction
  chain : List Block
  blockchain_address : String
deriving DecidableEq

/-- `BlockChain.create_block`: build the block from the current time, the
pool, the nonce and the previous hash, append it to the chain and reset the
pool.  The best-effort `requests.delete` broadcast to neighbours touches no
local state and is dropped. -/
def create_block (st : BlockChain) (timestamp : ℚ) (nonce : Nat) (previous_hash : String) :
    BlockChain × Block :=
  let block : Block :=
    { timestamp := timestamp, transactions := st.transaction_pool,
      nonce := nonce, previous_hash := previous_hash }
  ({ st with chain := st.chain ++ [block], transaction_pool := [] }, block)

/-- Value of one hex digit character. -/
def hexVal (c : Char) : Option Nat :=
  if 48 ≤ c.toNat ∧ c.toNat ≤ 57 then some (c.toNat - 48)
  else if 97 ≤ c.toNat ∧ c.toNat ≤ 102 then some (c.toNat - 87)
  else if 65 ≤ c.toNat ∧ c.toNat ≤ 70 then some (c.toNat - 55)
  else none

def bytesFromHexChars : List Char → Option (List Nat)
  | [] => some []
  | [_] => none
  | c1 :: c2 :: rest =>
    match hexVal c1, hexVal c2, bytesFromHexChars rest with
    | some h1, some h2, some bs => some ((16 * h1 + h2) :: bs)
    | _, _, _ => none

/-- `bytes.fromhex`: `none` models the `ValueError` raised on a non-hex
character or an odd number of digits. -/
def bytes_fromhex (s : String) : Option (List Nat) := bytesFromHexChars s.data

/-- `ecdsa.VerifyingKey.from_string(b, curve=NIST256p)`: the raw encoding of
a NIST P-256 point is 64 bytes; any other length raises MalformedPointError,
modelled as `none`.  The on-curve check of a 64-byte string is left to the
abstract `ecdsaVerify` predicate the verifier is parameterized by (a failure
there is also an exception, so folding it into the mismatch branch only
relocates which error escapes). -/
def verifying_key_from_string (b : List Nat) : Option (List Nat) :=
  if b.length = 64 then some b else none

/-- The single-quote character, for Python `repr` output. -/
def pySQ : String := (Char.ofNat 39).toString

/-- Python `repr` of a plain string (no escapes modelled; the addresses this
development evaluates contain none). -/
def pyReprStr (s : String) : String := pySQ ++ s ++ pySQ

/-- `str(transaction)` for the sorted transaction OrderedDict, as CPython
3.7-3.11 renders it (3.12 switched to a dict-style repr; nothing below
depends on the exact text, which only feeds the abstract signature
predicate). -/
def pyStrOfTransaction (t : Transaction) : String :=
  "OrderedDict([(" ++ pyReprStr "recipient_blockchain_address" ++ ", " ++
    pyReprStr t.recipient_blockchain_address ++ "), (" ++
    pyReprStr "sender_blockchain_address" ++ ", " ++
    pyReprStr t.sender_blockchain_address ++ "), (" ++
    pyReprStr "value" ++ ", " ++ pyFloatRepr t.value ++ ")])"

/-- `BlockChain.verify_transaction_signature`.  The ecdsa library's
`verify` returns True on success and raises BadSignatureError on a
cryptographic mismatch; `bytes.fromhex` raises ValueError on malformed hex,
`fromhex(None)` raises TypeError, and `from_string` raises
MalformedPointError on a wrong-length key.  None of these is caught, so the
embedding returns `Except`: `.error` is an exception escaping to the caller.
The pure curve computation is the parameter `ecdsaVerify` (key, signature,
digest). -/
def verify_transaction_signature (ecdsaVerify : List Nat → List Nat → List Nat → Bool)
    (sender_public_key : Option String) (signature : Option String)
    (transaction : Transaction) : Except String Bool :=
  let message := sha256Bytes (strBytes (pyStrOfTransaction transaction))
  match signature with
  | none => .error "TypeError"
  | some sg =>
    match bytes_fromhex sg with
    | none => .error "ValueError"
    | some signature_bytes =>
      match sender_public_key with
      | none => .error "TypeError"
      | some pk =>
        match bytes_fromhex pk with
        | none => .error "ValueError"
        | some pk_bytes =>
          match verifying_key_from_string pk_bytes with
          | none => .error "MalformedPointError"
          | some verifying_key =>
            if ecdsaVerify verifying_key signature_bytes message then .ok true
            else .error "BadSignatureError"

/-- `BlockChain.calculate_total_amount`: walk the chain's blocks and their
transactions, adding the value at the recipient and subtracting it at the
sender.  The pending pool is never read. -/
def calculate_total_amount (blockchain_address : String) (st : BlockChain) : ℚ :=
  st.chain.foldl
    (fun total block =>
      block.transactions.foldl
        (fun total transaction =>
          let value := transaction.value
          let total :=
            if blockchain_address = transaction.recipient_blockchain_address then
              total + value
            else total
          if blockchain_address = transaction.sender_blockchain_address then
            total - value
          else total)
        total)
    0

/-- `BlockChain.add_transaction`.  The system sender is admitted
unconditionally; otherwise the signature is verified (an exception there
propagates), then the balance is compared against the value. -/
def add_transaction (ecdsaVerify : List Nat → List Nat → List Nat → Bool)
    (st : BlockChain) (sender_blockchain_address recipient_blockchain_address : String)
    (value : ℚ) (sender_public_key signature : Option String) :
    Except String (BlockChain × Bool) :=
  let transaction : Transaction :=
    ⟨sender_blockchain_address, recipient_blockchain_address, value⟩
  if sender_blockchain_address = MINING_SENDER then
    .ok ({ st with transaction_pool := st.transaction_pool ++ [transaction] }, true)
  else
    match verify_transaction_signature ecdsaVerify sender_public_key signature transaction with
    | .error e => .error e
    | .ok true =>
      if calculate_total_amount sender_blockchain_address st < value then
        .ok (st, false)
      else
        .ok ({ st with transaction_pool := st.transaction_pool ++ [transaction] }, true)
    | .ok false => .ok (st, false)

/-- `json.dumps(guess_block, sort_keys=True)` for the proof-of-work guess map
`sorted_dict_by_key({'transactions', 'nonce', 'previous_hash'})`. -/
def dumpsGuessBlock (transactions : List Transaction) (nonce : Nat) (previous_hash : String) :
    String :=
  "\x7b\"nonce\": " ++ toString nonce ++
  ", \"previous_hash\": " ++ jsonQuote previous_hash ++
  ", \"transactions\": " ++ dumpsTransactionList transactions ++ "\x7d"

/-- `BlockChain.valid_proof`: the hash of the guess map must start with
`difficulty` zero characters. -/
def valid_proof (transactions : List Transaction) (previous_hash : String) (nonce : Nat)
    (difficulty : Nat) : Bool :=
  let guess_hash := sha256HexOfString (dumpsGuessBlock transactions nonce previous_hash)
  guess_hash.take difficulty == String.mk (List.replicate difficulty '0')

/-- The walk of `BlockChain.valid_chain` from index 1, carrying the previous
block: first the previous-hash link is checked, then the proof of work of the
block's own (transactions, nonce, previous_hash). -/
def valid_chainGo (pre : Block) : List Block → Bool
  | [] => true
  | block :: rest =>
    if block.previous_hash ≠ blockHash pre then false
    else if !valid_proof block.transactions block.previous_hash block.nonce MINING_DIFFICULTY then
      false
    else valid_chainGo block rest

/-- `BlockChain.valid_chain` reads `chain[0]` before its loop, so the empty
candidate raises IndexError: the total embedding returns `none` there. -/
def valid_chain : List Block → Option Bool
  | [] => none
  | b0 :: rest => some (valid_chainGo b0 rest)

/-- The `while not valid_proof: nonce += 1` search, made total with fuel:
`none` means the nonce was not found within `fuel` attempts. -/
def powSearch (transactions : List Transaction) (previous_hash : String) :
    Nat → Nat → Option Nat
  | 0, _ => none
  | fuel + 1, nonce =>
    if valid_proof transactions previous_hash nonce MINING_DIFFICULTY then some nonce
    else powSearch transactions previous_hash fuel (nonce + 1)

/-- `BlockChain.proof_of_work`: snapshot the pool, hash the chain's last
block (`chain[-1]` raises on an empty chain, hence `none`) and search nonces
from 0. -/
def proof_of_work (st : BlockChain) (fuel : Nat) : Option Nat :=
  match st.chain.getLast? with
  | none => none
  | some last => powSearch st.transaction_pool (blockHash last) fuel 0

/-- `BlockChain.mining`: admit the reward transaction from the system sender
to this node's own address, run the proof of work, and create the block with
the found nonce and the hash of the last block.  The consensus broadcast to
neighbours is dropped.  `none` covers the unreachable error branches and an
insufficient fuel bound for the search. -/
def mining (ecdsaVerify : List Nat → List Nat → List Nat → Bool) (st : BlockChain)
    (timestamp : ℚ) (fuel : Nat) : Option (BlockChain × Bool) :=
  match add_transaction ecdsaVerify st MINING_SENDER st.blockchain_address MINING_REWARD
      none none with
  | .error _ => none
  | .ok (st1, _) =>
    match proof_of_work st1 fuel with
    | none => none
    | some nonce =>
      match st1.chain.getLast? with
      | none => none
      | some last => some ((create_block st1 timestamp nonce (blockHash last)).1, true)

/-- The scan of `BlockChain.resolve_conflicts` over the fetched neighbour
chains, carrying the running maximum length (seeded with the local chain's
length) and the best candidate so far.  `valid_chain` is evaluated only for a
strictly longer candidate, matching the short-circuit `and`; its IndexError
(`none`) propagates. -/
def resolveLoop : Nat → Option (List Block) → List (List Block) →
    Option (Nat × Option (List Block))
  | max_length, longest_chain, [] => some (max_length, longest_chain)
  | max_length, longest_chain, chain :: rest =>
    if max_length < chain.length then
      match valid_chain chain with
      | none => none
      | some true => resolveLoop chain.length (some chain) rest
      | some false => resolveLoop max_length longest_chain rest
    else resolveLoop max_length longest_chain rest

/-- `BlockChain.resolve_conflicts` over the list of successfully fetched
neighbour chains (per-neighbour network failures and non-200 responses are
exactly the chains missing from this list).  The final `if longest_chain:`
is Python truthiness, so an empty candidate would count as no candidate. -/
def resolve_conflicts (st : BlockChain) (fetched : List (List Block)) :
    Option (BlockChain × Bool) :=
  match resolveLoop st.chain.length none fetched with
  | none => none
  | some (_, some c) =>
    if c.isEmpty then some (st, false) else some ({ st with chain := c }, true)
  | some (_, none) => some (st, false)

/-! ## The mining task and its semaphore (`BlockChain.start_mining`)

`start_mining` tries `mining_semaphore.acquire(blocking=False)`; on success
it runs `mining()`, schedules itself again and releases (the ExitStack
callback), on failure it does nothing.  The model splits an invocation into
the non-blocking acquire and the run-and-release body so that a second
invocation can be interleaved while the first holds the semaphore; the
mining run itself is an opaque ledger update. -/

structure MiningTaskState where
  semaphore_held : Bool
  ledger : BlockChain
  completed_runs : Nat
deriving DecidableEq

/-- `self.mining_semaphore.acquire(blocking=False)`. -/
def mining_semaphore_acquire (s : MiningTaskState) : MiningTaskState × Bool :=
  if s.semaphore_held then (s, false) else ({ s with semaphore_held := true }, true)

/-- The body under the acquired semaphore: run `mining()`, reschedule (a
timer, no local state) and release. -/
def mining_run_and_release (run : BlockChain → BlockChain) (s : MiningTaskState) :
    MiningTaskState :=
  { semaphore_held := false, ledger := run s.ledger,
    completed_runs := s.completed_runs + 1 }

/-- One whole `start_mining` invocation. -/
def start_mining (run : BlockChain → BlockChain) (s : MiningTaskState) : MiningTaskState :=
  let acq := mining_semaphore_acquire s
  if acq.2 then mining_run_and_release run acq.1 else acq.1

/-! ## Concrete states used by the witnesses -/

def txAB : Transaction := ⟨"A", "B", 5⟩
def txBA : Transaction := ⟨"B", "A", 2⟩
def rewardMiner : Transaction := ⟨MINING_SENDER, "miner", 1⟩
def genesisBlock : Block := ⟨1020, [], 0, emptyDictHash⟩
def genesisHash : String := "332aaaf75c80f5ed632a6633a71e87e7ef04ee5c8bfd5f0862c92545d1e79b6a"
def ledger0 : BlockChain := ⟨[txAB, txBA], [genesisBlock], "miner"⟩
def minedBlock : Block := ⟨1021, [txAB, txBA, rewardMiner], 2, genesisHash⟩
def ledger1 : BlockChain := ⟨[], [genesisBlock, minedBlock], "miner"⟩

/-- The signed contribution of one transaction to an address's balance, in
the spec's words: add the value when the address is the recipient, subtract
it when the address is the sender. -/
def txContrib (blockchain_address : String) (t : Transaction) : ℚ :=
  (if blockchain_address = t.recipient_blockchain_address then t.value else 0) -
  (if blockchain_address = t.sender_blockchain_address then t.value else 0)

/-- The balance as the spec words it: the sum, over every block of the chain
and every transaction of that block, of the transaction's signed
contribution. -/
def balance_spec (blockchain_address : String) (chain : List Block) : ℚ :=
  ((chain.flatMap fun b => b.transactions).map (txContrib blockchain_address)).sum

/-- The per-block condition `valid_chain` checks from index 1 on: the link to
the previous block's hash, and the proof of work of the block's own
(transactions, nonce, previous_hash). -/
def blockLinkOk (pre b : Block) : Prop :=
  b.previous_hash = blockHash pre ∧
  valid_proof b.transactions b.previous_hash b.nonce MINING_DIFFICULTY = true

/-- A chain holding A→B: 5 and then B→A: 2, for the balance example. -/
def blockAB5 : Block := ⟨1, [⟨"A", "B", 5⟩], 0, "x"⟩
def blockBA2 : Block := ⟨2, [⟨"B", "A", 2⟩], 0, "y"⟩

/-- A ledger with that chain and a pending A→B:100 still in the pool, which
the balance must ignore. -/
def balanceLedger : BlockChain := ⟨[⟨"A", "B", 100⟩], [blockAB5, blockBA2], ""⟩

/-- A valid 128-hex-character (64-byte) public key string. -/
def pk64hex : String := String.mk (List.replicate 128 '0')

def miningTask0 : MiningTaskState := ⟨false, ledger0, 0⟩

def aEntry : String × PyVal := ("a", .pstr "x")
def bEntry : String × PyVal := ("b", .pint 1)

/-! ## Balance (C6) -/

theorem txFoldl_eq (blockchain_address : String) (ts : List Transaction) (init : ℚ) :
    ts.foldl
      (fun total transaction =>
        let value := transaction.value
        let total :=
          if blockchain_address = transaction.recipient_blockchain_address then total + value
          else total
        if blockchain_address = transaction.sender_blockchain_address then total - value
        else total)
      init = init + (ts.map (txContrib blockchain_address)).sum := by
  induction ts generalizing init with
  | nil => simp
  | cons t ts ih =>
    simp only [List.foldl_cons, List.map_cons, List.sum_cons, ih, txContrib]
    split_ifs <;> ring

theorem blockFoldl_eq (blockchain_address : String) (blocks : List Block) (init : ℚ) :
    blocks.foldl
      (fun total block =>
        block.transactions.foldl
          (fun total transaction =>
            let value := transaction.value
            let total :=
              if blockchain_address = transaction.recipient_blockchain_address then total + value
              else total
            if blockchain_address = transaction.sender_blockchain_address then total - value
            else total)
          total)
      init = init + balance_spec blockchain_address blocks := by
  induction blocks generalizing init with
  | nil => simp [balance_spec]
  | cons b bs ih =>
    rw [List.foldl_cons, txFoldl_eq, ih]
    simp only [balance_spec, List.flatMap_cons, List.map_append, List.sum_append]
    ring

/-- C6: for every address, `calculate_total_amount` is the sum over every
block of the chain and every transaction of that block of +value at the
recipient and -value at the sender; the pending pool is excluded (replacing
it changes nothing); on the concrete chain holding A→B: 5 and then B→A: 2,
the balance of A is -3 and of B is 3. -/
theorem calculate_total_amount_spec :
    (∀ (blockchain_address : String) (st : BlockChain),
      calculate_total_amount blockchain_address st =
        balance_spec blockchain_address st.chain) ∧
    (∀ (blockchain_address : String) (st : BlockChain) (pool : List Transaction),
      calculate_total_amount blockchain_address { st with transaction_pool := pool } =
        calculate_total_amount blockchain_address st) ∧
    calculate_total_amount "A" balanceLedger = -3 ∧
    calculate_total_amount "B" balanceLedger = 3 := by
  have key : ∀ (a : String) (st : BlockChain),
      calculate_total_amount a st = balance_spec a st.chain := by
    intro a st
    simpa [calculate_total_amount] using blockFoldl_eq a st.chain 0
  refine ⟨key, fun a st pool => by rw [key, key], ?_, ?_⟩
  · rw [key]
    simp [balanceLedger, blockAB5, blockBA2, balance_spec, txContrib]
    norm_num
  · rw [key]
    simp [balanceLedger, blockAB5, blockBA2, balance_spec, txContrib]
    norm_num

/-! ## Frame effects of the pool (C7) -/

/-- C7: `create_block` appends exactly one block and resets the pool to
empty; `resolve_conflicts` never touches the pool, replacement or not; and
`add_transaction` either leaves the pool alone or appends one transaction
(and never touches the chain).  Block creation is thus the only ledger
operation that clears the pool. -/
theorem create_block_only_pool_clearer :
    (∀ (st : BlockChain) (ts : ℚ) (nonce : Nat) (previous_hash : String),
      (create_block st ts nonce previous_hash).1.chain =
        st.chain ++ [(create_block st ts nonce previous_hash).2] ∧
      (create_block st ts nonce previous_hash).1.transaction_pool = []) ∧
    (∀ (st : BlockChain) (fetched : List (List Block)) (out : BlockChain × Bool),
      resolve_conflicts st fetched = some out →
        out.1.transaction_pool = st.transaction_pool) ∧
    (∀ (ev : List Nat → List Nat → List Nat → Bool) (st : BlockChain)
        (sender recipient : String) (value : ℚ) (pk sg : Option String)
        (out : BlockChain × Bool),
      add_transaction ev st sender recipient value pk sg = .ok out →
        (out.1.transaction_pool = st.transaction_pool ∨
          ∃ t, out.1.transaction_pool = st.transaction_pool ++ [t]) ∧
        out.1.chain = st.chain) := by
  refine ⟨fun st ts nonce ph => ⟨rfl, rfl⟩, ?_, ?_⟩
  · intro st fetched out h
    unfold resolve_conflicts at h
    split at h
    · exact absurd h (by simp)
    · split at h <;> (injection h with h2; subst h2; rfl)
    · injection h with h2; subst h2; rfl
  · intro ev st sender recipient value pk sg out h
    simp only [add_transaction] at h
    split at h
    · injection h with h2
      subst h2
      exact ⟨Or.inr ⟨_, rfl⟩, rfl⟩
    · split at h
      · exact absurd h (by simp)
      · split at h
        · injection h with h2; subst h2; exact ⟨Or.inl rfl, rfl⟩
        · injection h with h2; subst h2; exact ⟨Or.inr ⟨_, rfl⟩, rfl⟩
      · injection h with h2; subst h2; exact ⟨Or.inl rfl, rfl⟩

/-! ## The mining semaphore (C9) -/

/-- C9: from a state where the mining semaphore is free, a first invocation
acquires it; a second whole invocation arriving before the first releases is
the identity on the task state (no mining run, ledger and run count
unchanged), and the first invocation's completion accounts for exactly one
run. -/
theorem start_mining_overlap_single_run (run : BlockChain → BlockChain)
    (s : MiningTaskState) (hfree : s.semaphore_held = false) :
    (mining_semaphore_acquire s).2 = true ∧
    (mining_semaphore_acquire s).1.semaphore_held = true ∧
    start_mining run (mining_semaphore_acquire s).1 = (mining_semaphore_acquire s).1 ∧
    (start_mining run (mining_semaphore_acquire s).1).ledger = s.ledger ∧
    (start_mining run (mining_semaphore_acquire s).1).completed_runs = s.completed_runs ∧
    (mining_run_and_release run (mining_semaphore_acquire s).1).completed_runs =
      s.completed_runs + 1 := by
  simp [mining_semaphore_acquire, start_mining, mining_run_and_release, hfree]

/-- Witness for C9 at a concrete free-semaphore state, the mining run being
any ledger update. -/
theorem start_mining_overlap_single_run_witness :
    (mining_semaphore_acquire miningTask0).2 = true ∧
    (mining_semaphore_acquire miningTask0).1.semaphore_held = true ∧
    start_mining id (mining_semaphore_acquire miningTask0).1 =
      (mining_semaphore_acquire miningTask0).1 ∧
    (start_mining id (mining_semaphore_acquire miningTask0).1).ledger = miningTask0.ledger ∧
    (start_mining id (mining_semaphore_acquire miningTask0).1).completed_runs =
      miningTask0.completed_runs ∧
    (mining_run_and_release id (mining_semaphore_acquire miningTask0).1).completed_runs =
      miningTask0.completed_runs + 1 :=
  start_mining_overlap_single_run id miningTask0 rfl

/-! ## `valid_chain` at the empty and one-block candidate (C10) -/

/-- C10: `valid_chain` reads `chain[0]` before its loop, so on the empty
candidate it produces no boolean (the embedding's `none` is that IndexError);
on every non-empty candidate it returns a boolean, and every one-block
candidate validates as true. -/
theorem valid_chain_needs_nonempty :
    valid_chain [] = none ∧
    (∀ chain : List Block, chain ≠ [] → ∃ b, valid_chain chain = some b) ∧
    (∀ block : Block, valid_chain [block] = some true) := by
  refine ⟨rfl, ?_, fun block => rfl⟩
  intro chain h
  cases chain with
  | nil => exact absurd rfl h
  | cons b rest => exact ⟨valid_chainGo b rest, rfl⟩

/-! ## The signature verifier raises (C2) and admission propagates it (C5) -/

/-- C2 (the code contradicts the spec here): the spec says the verifier
returns a boolean and never raises, yielding false uniformly on malformed
hex, a wrong-length key and a cryptographic mismatch.  In the code each of
those paths raises — ValueError out of `bytes.fromhex`, MalformedPointError
out of `VerifyingKey.from_string`, BadSignatureError out of the ecdsa
library's `verify` — and no exception is caught, so the only boolean the
function ever returns is True. -/
theorem verify_transaction_signature_raises :
    verify_transaction_signature (fun _ _ _ => false) (some pk64hex) (some "zz") txAB =
      .error "ValueError" ∧
    verify_transaction_signature (fun _ _ _ => false) (some "abcd") (some "00") txAB =
      .error "MalformedPointError" ∧
    verify_transaction_signature (fun _ _ _ => false) (some pk64hex) (some "00") txAB =
      .error "BadSignatureError" ∧
    (∀ (ev : List Nat → List Nat → List Nat → Bool) (pk sg : Option String)
        (t : Transaction) (b : Bool),
      verify_transaction_signature ev pk sg t = .ok b → b = true) := by
  refine ⟨rfl, rfl, rfl, ?_⟩
  intro ev pk sg t b h
  simp only [verify_transaction_signature] at h
  repeat' split at h
  all_goals simp_all

/-- C5 (the code contradicts the spec's rejection mode for bad signatures):
admission from the reserved system sender appends unconditionally and
reports true, an insufficient balance reports false, but a transaction whose
signature does not verify does not report false — the verifier's exception
propagates out of `add_transaction` (its final `return False` is dead code,
the verifier returning only True or raising). -/
theorem add_transaction_bad_signature_raises :
    add_transaction (fun _ _ _ => false) ledger0 "A" "B" 1 (some pk64hex) (some "00") =
      .error "BadSignatureError" ∧
    add_transaction (fun _ _ _ => true) ledger0 "A" "B" 1 (some pk64hex) (some "00") =
      .ok (ledger0, false) ∧
    add_transaction (fun _ _ _ => false) ledger0 MINING_SENDER "B" 1 none none =
      .ok ({ ledger0 with
              transaction_pool := ledger0.transaction_pool ++ [⟨MINING_SENDER, "B", 1⟩] },
            true) := by
  exact ⟨rfl, rfl, rfl⟩

/-! ## `valid_chain` walks the links from index 1 (C4) -/

theorem valid_chainGo_iff_chain (pre : Block) (l : List Block) :
    valid_chainGo pre l = true ↔ List.Chain blockLinkOk pre l := by
  induction l generalizing pre with
  | nil => simp [valid_chainGo]
  | cons b rest ih =>
    by_cases h1 : b.previous_hash = blockHash pre
    · by_cases hpf : valid_proof b.transactions b.previous_hash b.nonce MINING_DIFFICULTY = true
      · have hpf2 : valid_proof b.transactions (blockHash pre) b.nonce MINING_DIFFICULTY = true :=
          h1 ▸ hpf
        simp [valid_chainGo, List.chain_cons, blockLinkOk, h1, hpf, hpf2, ih]
      · simp only [Bool.not_eq_true] at hpf
        have hpf2 : valid_proof b.transactions (blockHash pre) b.nonce MINING_DIFFICULTY = false :=
          h1 ▸ hpf
        simp [valid_chainGo, List.chain_cons, blockLinkOk, h1, hpf, hpf2]
    · simp [valid_chainGo, List.chain_cons, blockLinkOk, h1]

/-- C4: for a candidate chain of length at least 2, `valid_chain` returns
true exactly when every block at index 1 .. len-1 has previous_hash equal to
the hash of the block before it and a valid proof of work for its own
(transactions, nonce, previous_hash) at the system difficulty; the block at
index 0 is never itself revalidated (it appears only as the hash target of
index 1), and the early return on the first failure is observationally the
same conjunction. -/
theorem valid_chain_iff_links (chain : List Block) (h2 : 2 ≤ chain.length) :
    valid_chain chain = some true ↔
      ∀ (i : Nat) (hi : i < chain.length), 1 ≤ i →
        (chain.get ⟨i, hi⟩).previous_hash =
            blockHash (chain.get ⟨i - 1, by omega⟩) ∧
          valid_proof (chain.get ⟨i, hi⟩).transactions (chain.get ⟨i, hi⟩).previous_hash
            (chain.get ⟨i, hi⟩).nonce MINING_DIFFICULTY = true := by
  cases chain with
  | nil => simp at h2
  | cons b0 rest =>
    show some (valid_chainGo b0 rest) = some true ↔ _
    rw [Option.some.injEq, valid_chainGo_iff_chain, List.chain_iff_get]
    constructor
    · rintro ⟨hhead, hrest⟩ i hi h1
      obtain ⟨j, rfl⟩ : ∃ j, i = j + 1 := ⟨i - 1, by omega⟩
      cases j with
      | zero =>
        have h0 : 0 < rest.length := by
          simp only [List.length_cons] at hi; omega
        have hb := hhead h0
        simpa [blockLinkOk] using hb
      | succ k =>
        have hk : k < rest.length - 1 := by
          simp only [List.length_cons] at hi; omega
        have hb := hrest k hk
        simpa [blockLinkOk] using hb
    · intro h
      refine ⟨?_, ?_⟩
      · intro h0
        have hb := h 1 (by simp only [List.length_cons]; omega) (by omega)
        simpa [blockLinkOk] using hb
      · intro i hilen
        have hb := h (i + 2) (by simp only [List.length_cons]; omega) (by omega)
        simpa [blockLinkOk] using hb

/-- Witness for C4 at the concrete two-block chain mined below (the
equivalence instantiated there; both sides hold, the right side vacuously
checkable by evaluation). -/
theorem valid_chain_iff_links_witness :
    valid_chain [genesisBlock, minedBlock] = some true ↔
      ∀ (i : Nat) (hi : i < ([genesisBlock, minedBlock] : List Block).length), 1 ≤ i →
        (([genesisBlock, minedBlock] : List Block).get ⟨i, hi⟩).previous_hash =
            blockHash (([genesisBlock, minedBlock] : List Block).get ⟨i - 1, by omega⟩) ∧
          valid_proof (([genesisBlock, minedBlock] : List Block).get ⟨i, hi⟩).transactions
            (([genesisBlock, minedBlock] : List Block).get ⟨i, hi⟩).previous_hash
            (([genesisBlock, minedBlock] : List Block).get ⟨i, hi⟩).nonce MINING_DIFFICULTY =
            true :=
  valid_chain_iff_links [genesisBlock, minedBlock] (by decide)

/-! ## Key-order stability of the codec's hash (C8) -/

theorem dumpsVal_pdict (d : List (String × PyVal)) :
    dumpsVal (.pdict d) =
      "\x7b" ++ String.intercalate ", "
        ((List.insertionSort entryLE d).map
          (fun kv => jsonQuote kv.1 ++ ": " ++ dumpsVal kv.2)) ++ "\x7d" := by
  rw [dumpsVal]
  congr 2
  congr 1
  exact List.attach_map_val (List.insertionSort entryLE d)
    (fun kv => jsonQuote kv.1 ++ ": " ++ dumpsVal kv.2)

theorem insertionSort_eq_of_perm_of_nodup_keys (d1 d2 : List (String × PyVal))
    (hp : d1.Perm d2) (hnd : (d1.map Prod.fst).Nodup) :
    List.insertionSort entryLE d1 = List.insertionSort entryLE d2 := by
  haveI ht : IsTotal (String × PyVal) entryLE := ⟨fun a b => le_total a.1 b.1⟩
  haveI htr : IsTrans (String × PyVal) entryLE := ⟨fun a b c hab hbc => le_trans hab hbc⟩
  haveI : IsAntisymm (String × PyVal) (fun a b => a.1 < b.1) :=
    ⟨fun a b hab hba => absurd (lt_trans hab hba) (lt_irrefl _)⟩
  have p1 := List.perm_insertionSort entryLE d1
  have p2 := List.perm_insertionSort entryLE d2
  have p : (List.insertionSort entryLE d1).Perm (List.insertionSort entryLE d2) :=
    p1.trans (hp.trans p2.symm)
  have s1 := List.sorted_insertionSort entryLE d1
  have s2 := List.sorted_insertionSort entryLE d2
  have nd1 : ((List.insertionSort entryLE d1).map Prod.fst).Nodup :=
    ((p1.map Prod.fst).nodup_iff).mpr hnd
  have nd2 : ((List.insertionSort entryLE d2).map Prod.fst).Nodup := by
    have hnd2 : (d2.map Prod.fst).Nodup := ((hp.map Prod.fst).nodup_iff).mp hnd
    exact ((p2.map Prod.fst).nodup_iff).mpr hnd2
  have st1 : List.Sorted (fun a b : String × PyVal => a.1 < b.1)
      (List.insertionSort entryLE d1) := by
    have hne := (List.pairwise_map).mp nd1
    exact (s1.and hne).imp (fun h => lt_of_le_of_ne h.1 h.2)
  have st2 : List.Sorted (fun a b : String × PyVal => a.1 < b.1)
      (List.insertionSort entryLE d2) := by
    have hne := (List.pairwise_map).mp nd2
    exact (s2.and hne).imp (fun h => lt_of_le_of_ne h.1 h.2)
  exact List.eq_of_perm_of_sorted p st1 st2

/-- C8: the codec's hash is a pure function of the logical map content:
for two maps with the same key/value entries in different insertion orders
(same entries up to permutation, keys unrepeated), the serialization sorts
the keys and the hash agrees; and the hash is by construction the SHA-256 of
the key-sorted serialization, rendered as lowercase hex, so re-serializing a
parsed block hashes identically. -/
theorem dictHash_insertion_order_stable (d1 d2 : List (String × PyVal))
    (hp : d1.Perm d2) (hnd : (d1.map Prod.fst).Nodup) :
    dictHash d1 = dictHash d2 ∧
    dictHash d1 = sha256HexOfString (dumpsVal (.pdict d1)) := by
  refine ⟨?_, rfl⟩
  unfold dictHash
  rw [dumpsVal_pdict, dumpsVal_pdict, insertionSort_eq_of_perm_of_nodup_keys d1 d2 hp hnd]

/-- Witness for C8: the two-entry map built in both insertion orders. -/
theorem dictHash_insertion_order_stable_witness :
    dictHash [bEntry, aEntry] = dictHash [aEntry, bEntry] ∧
    dictHash [bEntry, aEntry] = sha256HexOfString (dumpsVal (.pdict [bEntry, aEntry])) :=
  dictHash_insertion_order_stable [bEntry, aEntry] [aEntry, bEntry]
    (List.Perm.swap aEntry bEntry []) (by decide)

/-! ## Fork-choice (C1) -/

theorem valid_chain_none_iff (c : List Block) : valid_chain c = none ↔ c = [] := by
  cases c <;> simp [valid_chain]

/-- Invariant of the scan over the fetched chains: the running maximum never
decreases, the final candidate is either the initial one (when nothing beat
the maximum) or a valid strictly-improving chain from the list whose length
is the final maximum, and every valid chain of the list is bounded by the
final maximum. -/
theorem resolveLoop_spec (fetched : List (List Block)) :
    ∀ (maxLen : Nat) (longest : Option (List Block)),
      (∀ c, longest = some c → c.length = maxLen ∧ valid_chain c = some true) →
      ∃ m fin, resolveLoop maxLen longest fetched = some (m, fin) ∧
        maxLen ≤ m ∧
        ((m = maxLen ∧ fin = longest) ∨
          (maxLen < m ∧ ∃ c, fin = some c ∧ c ∈ fetched ∧ valid_chain c = some true ∧
            c.length = m)) ∧
        (∀ c ∈ fetched, valid_chain c = some true → c.length ≤ m) := by
  induction fetched with
  | nil =>
    intro maxLen longest hl
    exact ⟨maxLen, longest, rfl, le_refl _, Or.inl ⟨rfl, rfl⟩, by simp⟩
  | cons c rest ih =>
    intro maxLen longest hl
    by_cases hlen : maxLen < c.length
    · have hne : c ≠ [] := by
        intro hnil
        rw [hnil] at hlen
        simp at hlen
      cases hv : valid_chain c with
      | none => exact absurd ((valid_chain_none_iff c).mp hv) hne
      | some b =>
        cases b with
        | true =>
          obtain ⟨m, fin, heq, hle, hdisj, hmax⟩ := ih c.length (some c)
            (by intro c' hc'; injection hc' with hc'; subst hc'; exact ⟨rfl, hv⟩)
          refine ⟨m, fin, ?_, by omega, ?_, ?_⟩
          · simp only [resolveLoop, if_pos hlen, hv]
            exact heq
          · rcases hdisj with ⟨h1, h2⟩ | ⟨h1, hc', hfin, hmem, hvc', hlen'⟩
            · exact Or.inr ⟨by omega, c, by rw [h2], List.mem_cons_self c rest, hv, h1.symm⟩
            · exact Or.inr ⟨by omega, hc', hfin, List.mem_cons_of_mem c hmem, hvc', hlen'⟩
          · intro c' hc' hv'
            rcases List.mem_cons.mp hc' with rfl | hmem
            · omega
            · exact hmax c' hmem hv'
        | false =>
          obtain ⟨m, fin, heq, hle, hdisj, hmax⟩ := ih maxLen longest hl
          have hdisj2 : (m = maxLen ∧ fin = longest) ∨
              (maxLen < m ∧ ∃ c2, fin = some c2 ∧ c2 ∈ c :: rest ∧
                valid_chain c2 = some true ∧ c2.length = m) := by
            rcases hdisj with h | ⟨h1, c2, hfin, hmem, hvc2, hlen2⟩
            · exact Or.inl h
            · exact Or.inr ⟨h1, c2, hfin, List.mem_cons_of_mem c hmem, hvc2, hlen2⟩
          refine ⟨m, fin, ?_, hle, hdisj2, ?_⟩
          · simp only [resolveLoop, if_pos hlen, hv]
            exact heq
          · intro c' hc' hv'
            rcases List.mem_cons.mp hc' with rfl | hmem
            · rw [hv'] at hv
              exact absurd (Option.some.inj hv) (by simp)
            · exact hmax c' hmem hv'
    · obtain ⟨m, fin, heq, hle, hdisj, hmax⟩ := ih maxLen longest hl
      have hdisj2 : (m = maxLen ∧ fin = longest) ∨
          (maxLen < m ∧ ∃ c2, fin = some c2 ∧ c2 ∈ c :: rest ∧
            valid_chain c2 = some true ∧ c2.length = m) := by
        rcases hdisj with h | ⟨h1, c2, hfin, hmem, hvc2, hlen2⟩
        · exact Or.inl h
        · exact Or.inr ⟨h1, c2, hfin, List.mem_cons_of_mem c hmem, hvc2, hlen2⟩
      refine ⟨m, fin, ?_, hle, hdisj2, ?_⟩
      · simp only [resolveLoop, if_neg hlen]
        exact heq
      · intro c' hc' hv'
        rcases List.mem_cons.mp hc' with rfl | hmem
        · omega
        · exact hmax c' hmem hv'

/-- C1: `resolve_conflicts` always returns (no IndexError is reachable: the
candidate validated is always strictly longer than a running maximum, hence
non-empty); it reports "replaced" exactly when some fetched chain is both
strictly longer than the local chain and valid; on replacement the adopted
chain is such a candidate of maximal length, the pool and address are
untouched; and on "not replaced" — in particular when every fetched chain
has at most the local chain's length — the state is left entirely
unchanged. -/
theorem resolve_conflicts_longest_valid_wins :
    ∀ (st : BlockChain) (fetched : List (List Block)),
    ∃ (st' : BlockChain) (replaced : Bool),
      resolve_conflicts st fetched = some (st', replaced) ∧
      (replaced = true ↔
        ∃ c ∈ fetched, st.chain.length < c.length ∧ valid_chain c = some true) ∧
      (replaced = true →
        st'.chain ∈ fetched ∧ valid_chain st'.chain = some true ∧
        st.chain.length < st'.chain.length ∧
        st'.transaction_pool = st.transaction_pool ∧
        st'.blockchain_address = st.blockchain_address ∧
        (∀ c ∈ fetched, valid_chain c = some true → c.length ≤ st'.chain.length)) ∧
      (replaced = false → st' = st) := by
  intro st fetched
  obtain ⟨m, fin, heq, hle, hdisj, hmax⟩ :=
    resolveLoop_spec fetched st.chain.length none (by intro c hc; cases hc)
  rcases hdisj with ⟨hm, hfin⟩ | ⟨hm, c, hfin, hmem, hvc, hclen⟩
  · subst hfin
    refine ⟨st, false, ?_, ?_, by simp, fun _ => rfl⟩
    · simp only [resolve_conflicts, heq]
    · simp only [Bool.false_eq_true, false_iff]
      rintro ⟨c, hc, hlt, hv⟩
      have := hmax c hc hv
      omega
  · subst hfin
    have hcpos : 0 < c.length := by omega
    have hcne : ¬c.isEmpty := by
      cases c with
      | nil => simp at hcpos
      | cons x xs => simp
    refine ⟨{ st with chain := c }, true, ?_, ?_, ?_, by simp⟩
    · simp only [resolve_conflicts, heq, if_neg hcne]
    · simp only [true_iff]
      exact ⟨c, hmem, by omega, hvc⟩
    · intro _
      refine ⟨hmem, hvc, by simp; omega, rfl, rfl, ?_⟩
      intro c' h1 h2
      have := hmax c' h1 h2
      simp
      omega

/-! ## Mining (C3) -/

theorem powSearch_valid (transactions : List Transaction) (previous_hash : String) :
    ∀ (fuel start nonce : Nat),
      powSearch transactions previous_hash fuel start = some nonce →
      valid_proof transactions previous_hash nonce MINING_DIFFICULTY = true := by
  intro fuel
  induction fuel with
  | zero =>
    intro start nonce h
    exact absurd h (by simp [powSearch])
  | succ n ih =>
    intro start nonce h
    rw [powSearch] at h
    split at h
    · rename_i hc
      have h2 : start = nonce := Option.some.inj h
      subst h2
      exact hc
    · rename_i hc
      exact ih (start + 1) nonce h

/-- `mining` computed one step: the reward admission from the system sender
is unconditional, so the run reduces to the proof-of-work search over the
reward-extended pool followed by block creation. -/
theorem mining_eq (ev : List Nat → List Nat → List Nat → Bool) (st : BlockChain)
    (ts : ℚ) (fuel : Nat) :
    mining ev st ts fuel =
      match proof_of_work { st with transaction_pool := st.transaction_pool ++
          [⟨MINING_SENDER, st.blockchain_address, MINING_REWARD⟩] } fuel with
      | none => none
      | some nonce =>
        match ({ st with transaction_pool := st.transaction_pool ++
            [⟨MINING_SENDER, st.blockchain_address, MINING_REWARD⟩] } :
              BlockChain).chain.getLast? with
        | none => none
        | some last =>
          some ((create_block
            { st with transaction_pool := st.transaction_pool ++
              [⟨MINING_SENDER, st.blockchain_address, MINING_REWARD⟩] }
            ts nonce (blockHash last)).1, true) := by
  unfold mining
  rw [show add_transaction ev st MINING_SENDER st.blockchain_address MINING_REWARD none none =
      Except.ok ({ st with transaction_pool := st.transaction_pool ++
        [⟨MINING_SENDER, st.blockchain_address, MINING_REWARD⟩] }, true) by
    simp [add_transaction]]

/-- C3: a `mining` run on a ledger whose pool holds [t1, t2] reports true,
grows the chain by exactly one block, empties the pool, and the new last
block's transaction sequence is exactly [t1, t2, reward] where the reward
goes from the reserved system sender to the node's own address for the fixed
reward amount; the new block satisfies the system's difficulty check — its
proof-of-work hash, the codec hash of the block's (transactions, nonce,
previous_hash) that `valid_proof` applies during both mining and chain
validation, starts with the required number of zero hex characters.  (The
full-block hash additionally covers the timestamp, which proof-of-work does
not constrain.) -/
theorem mining_spec (ev : List Nat → List Nat → List Nat → Bool) (st : BlockChain)
    (t1 t2 : Transaction) (ts : ℚ) (fuel : Nat) (st' : BlockChain) (ok : Bool)
    (hpool : st.transaction_pool = [t1, t2])
    (hrun : mining ev st ts fuel = some (st', ok)) :
    ok = true ∧
    st'.chain.length = st.chain.length + 1 ∧
    st'.transaction_pool = [] ∧
    ∃ newBlock : Block, st'.chain = st.chain ++ [newBlock] ∧
      newBlock.transactions =
        [t1, t2, ⟨MINING_SENDER, st.blockchain_address, MINING_REWARD⟩] ∧
      valid_proof newBlock.transactions newBlock.previous_hash newBlock.nonce
        MINING_DIFFICULTY = true := by
  rw [mining_eq] at hrun
  split at hrun
  · exact absurd hrun (by simp)
  · rename_i nonce hpw
    split at hrun
    · exact absurd hrun (by simp)
    · rename_i last hlast
      injection hrun with hrun2
      injection hrun2 with h1 h2
      subst h1
      subst h2
      have hps : powSearch
          (st.transaction_pool ++ [⟨MINING_SENDER, st.blockchain_address, MINING_REWARD⟩])
          (blockHash last) fuel 0 = some nonce := by
        unfold proof_of_work at hpw
        rw [show ({ st with transaction_pool := st.transaction_pool ++
            [⟨MINING_SENDER, st.blockchain_address, MINING_REWARD⟩] } :
              BlockChain).chain.getLast? = st.chain.getLast? from rfl] at hpw
        rw [show ({ st with transaction_pool := st.transaction_pool ++
            [⟨MINING_SENDER, st.blockchain_address, MINING_REWARD⟩] } :
              BlockChain).chain.getLast? = st.chain.getLast? from rfl] at hlast
        rw [hlast] at hpw
        exact hpw
      refine ⟨rfl, by simp [create_block], rfl,
        ⟨ts, st.transaction_pool ++ [⟨MINING_SENDER, st.blockchain_address, MINING_REWARD⟩],
          nonce, blockHash last⟩, by simp [create_block], by simp [hpool], ?_⟩
      exact powSearch_valid _ _ fuel 0 nonce hps

set_option maxHeartbeats 1600000 in
/-- Witness for C3: the concrete two-transaction ledger over the concrete
genesis block; the proof-of-work nonce is 2, found within fuel 3. -/
theorem mining_spec_witness :
    true = true ∧
    ledger1.chain.length = ledger0.chain.length + 1 ∧
    ledger1.transaction_pool = [] ∧
    ∃ newBlock : Block, ledger1.chain = ledger0.chain ++ [newBlock] ∧
      newBlock.transactions =
        [txAB, txBA, ⟨MINING_SENDER, ledger0.blockchain_address, MINING_REWARD⟩] ∧
      valid_proof newBlock.transactions newBlock.previous_hash newBlock.nonce
        MINING_DIFFICULTY = true :=
  mining_spec (fun _ _ _ => false) ledger0 txAB txBA 1021 3 ledger1 true rfl (by decide)
